import Mathlib

/-!
Verification development for the a-piece-of-pisi core: the dependency-closure
graph builder, the topological sequencer, the bounded fetch pipeline, the
artifact grouping step and the recipe converter.

The data model (src/eopkg/index.rs) and the converter (src/converter.rs) are
translated directly from the source.  The closure-building loop, the fetch
pipeline and the grouping loop are translated from src/main.rs.  The `dag`
crate and the `futures` combinators used by main.rs are external to the
repository's own sources; the parts of their behaviour the proofs depend on
are modelled from the specification (spec.md sections 3, 4.2, 5 and 9), and
each such definition is marked `Modelled from the spec` in its doc comment.
-/

set_option maxHeartbeats 1000000

namespace Pisi

/-- Release entry in a package's update history (src/eopkg/index.rs, `Update`).
The XML `Date` field is kept as a plain string. -/
structure Update where
  release : Nat
  date : String
  version : String
  deriving DecidableEq

/-- Update history of a package (src/eopkg/index.rs, `History`). -/
structure History where
  updates : List Update
  deriving DecidableEq

/-- A single runtime dependency entry (src/eopkg/index.rs, `Dependency`); only
its textual value (the depended-on package name) is used by the core. -/
structure Dependency where
  value : String
  deriving DecidableEq

/-- Runtime dependency list of a package (src/eopkg/index.rs,
`RuntimeDependencies`). -/
structure RuntimeDependencies where
  deps : List Dependency
  deriving DecidableEq

/-- Source-package identity of a binary package (src/eopkg/index.rs, `Source`). -/
structure Source where
  name : String
  homepage : Option String
  deriving DecidableEq

/-- A binary package record (src/eopkg/index.rs, `Package`).  Byte sizes are
modelled as `Nat`. -/
structure Package where
  name : String
  summary : String
  description : String
  part_of : Option String
  package_uri : String
  package_size : Nat
  package_hash : String
  history : History
  source : Source
  licenses : List String
  run_deps : Option RuntimeDependencies
  deriving DecidableEq

/-- The name-to-record mapping built in main.rs line 144 from
`index.packages`.  Lookup is by the `name` field, so a successful lookup of
`n` always returns a record whose `name` is `n`. -/
structure Catalog where
  packages : List Package
  deriving DecidableEq

/-- Lookup of a package record by name (main.rs `mapping.get`). -/
def Catalog.get (c : Catalog) (n : String) : Option Package :=
  c.packages.find? (fun p => p.name == n)

/-- The dependency entries of a package: the list inside `run_deps` when it is
present, and the empty list otherwise (the `if let Some(deps)` in main.rs
lines 182-194 skips the loop exactly when `run_deps` is `None`). -/
def Package.depsList (p : Package) : List Dependency :=
  match p.run_deps with
  | none => []
  | some rd => rd.deps

/-- The dependency names of a package. -/
def depNames (p : Package) : List String :=
  p.depsList.map Dependency.value

/-- The error enum of src/main.rs (`Error`).  Payloads of the wrapped foreign
errors are dropped; note that the `UnknownPackage` variant carries no data in
the source either (main.rs lines 54-55). -/
inductive MainError where
  | uri
  | reqwest
  | io
  | invalidURI
  | template
  | unknownPackage
  deriving DecidableEq

/-- Modelled from the spec: the `dag` crate used by main.rs is not part of
this repository's sources.  Spec sections 3 and 9 describe the dependency
graph as a growable ordered collection of nodes (package names) paired with a
name-to-index lookup, indices being assigned on first insertion and stable,
plus a list of directed (from, to) index pairs. -/
structure Dag where
  nodes : List String
  edges : List (Nat × Nat)
  deriving DecidableEq

/-- Index lookup helper: position of the first occurrence of `n`. -/
def idxOfAux (n : String) : List String → Nat → Option Nat
  | [], _ => none
  | m :: rest, i => if m == n then some i else idxOfAux n rest (i + 1)

/-- Modelled from the spec: name-to-index lookup of the `dag` crate
(`get_index`); a given name maps to exactly one index (spec section 3). -/
def Dag.get_index (d : Dag) (n : String) : Option Nat :=
  idxOfAux n d.nodes 0

/-- Modelled from the spec: add-or-get semantics of the `dag` crate
(`add_node_or_get_index`): return the existing index when the name is already
a node, otherwise append the name as a fresh node and return its new index
(spec sections 3 and 9). -/
def Dag.add_node_or_get_index (d : Dag) (n : String) : Dag × Nat :=
  match d.get_index n with
  | some i => (d, i)
  | none => ({ d with nodes := d.nodes ++ [n] }, d.nodes.length)

/-- Modelled from the spec: edge insertion of the `dag` crate (`add_edge`),
recording a directed (from, to) pair (spec section 3). -/
def Dag.add_edge (d : Dag) (i j : Nat) : Dag :=
  { d with edges := d.edges ++ [(i, j)] }

/-- One dependency of the inner loop of main.rs lines 183-193: if the
dependency already has a node, only the edge is added; otherwise the name is
pushed onto the next frontier, its node is created, and the edge is added. -/
def processDep (g : Dag) (next : List String) (ourIdx : Nat) (dep : String) :
    Dag × List String :=
  match g.get_index dep with
  | some ci => (g.add_edge ourIdx ci, next)
  | none =>
    let r := g.add_node_or_get_index dep
    (r.1.add_edge ourIdx r.2, next ++ [dep])

/-- The dependency loop of main.rs lines 183-193, folded over the dependency
list of the package being expanded. -/
def processDeps (ourIdx : Nat) : Dag → List String → List Dependency → Dag × List String
  | g, next, [] => (g, next)
  | g, next, d :: rest =>
    let r := processDep g next ourIdx d.value
    processDeps ourIdx r.1 r.2 rest

/-- One package of the round loop of main.rs lines 179-195: look the name up
in the catalog (`Error::UnknownPackage` when absent), obtain or create its
node, then process its dependencies. -/
def processPkg (c : Catalog) (g : Dag) (next : List String) (pkg : String) :
    Except MainError (Dag × List String) :=
  match c.get pkg with
  | none => .error .unknownPackage
  | some p =>
    let r := g.add_node_or_get_index p.name
    .ok (processDeps r.2 r.1 next p.depsList)

/-- One round of the solver loop of main.rs lines 177-197: process every name
of the current frontier, accumulating the graph and the next frontier; the
`?` on the lookup aborts the round at the first unknown name. -/
def buildRound (c : Catalog) : Dag → List String → List String → Except MainError (Dag × List String)
  | g, next, [] => .ok (g, next)
  | g, next, pkg :: rest =>
    match processPkg c g next pkg with
    | .error e => .error e
    | .ok r => buildRound c r.1 r.2 rest

/-- The `while !processing.is_empty()` loop of main.rs lines 177-197.  The
Rust loop has no fuel; the `fuel` parameter is a modelling device and
`buildLoop_total` below shows that the fuel chosen in `build` is never
exhausted, so `none` (fuel ran out) is unreachable from `build`. -/
def buildLoop (c : Catalog) : Nat → Dag → List String → Option (Except MainError Dag)
  | _, g, [] => some (.ok g)
  | 0, _, _ => none
  | fuel + 1, g, processing =>
    match buildRound c g [] processing with
    | .error e => some (.error e)
    | .ok r => buildLoop c fuel r.1 r.2

/-- Every name a catalog can ever contribute as a graph node: the names of
its records and every dependency name they mention. -/
def allNames (c : Catalog) : List String :=
  c.packages.flatMap (fun p => p.name :: depNames p)

/-- Fuel that `buildLoop_total` proves sufficient for any bootstrap list. -/
def buildFuel (c : Catalog) : Nat := (allNames c).length + 1

/-- The closure builder of main.rs lines 173-197 (`build` in the spec):
starting from an empty graph and the bootstrap frontier, run rounds until the
frontier is empty. -/
def build (c : Catalog) (base : List String) : Option (Except MainError Dag) :=
  buildLoop c (buildFuel c) { nodes := [], edges := [] } base

/-- The names reachable from the bootstrap list via the dependency relation
of the catalog: the bootstrap names themselves, plus every dependency name of
a reachable name that resolves in the catalog. -/
inductive Reachable (c : Catalog) (b : List String) : String → Prop
  | base {n : String} : n ∈ b → Reachable c b n
  | step {m n : String} {p : Package} :
      Reachable c b m → c.get m = some p → n ∈ depNames p → Reachable c b n

/-- A name is fully expanded in a graph: it resolves in the catalog and all
its dependency names are nodes. -/
def Expanded (c : Catalog) (g : Dag) (n : String) : Prop :=
  ∃ p, c.get n = some p ∧ ∀ d ∈ depNames p, d ∈ g.nodes

/-- Whether node `j` has an incoming dependency edge from some still-remaining
node. -/
def hasIncoming (edges : List (Nat × Nat)) (remaining : List Nat) (j : Nat) : Bool :=
  edges.any (fun e => e.2 == j && remaining.contains e.1)

/-- Pick the next node to emit: the first remaining node with no incoming
edge from a remaining node, falling back to the first remaining node when
every remaining node sits on a cycle. -/
def pickNext (edges : List (Nat × Nat)) (remaining : List Nat) : Nat :=
  match remaining.find? (fun j => ! hasIncoming edges remaining j) with
  | some j => j
  | none => remaining.headD 0

/-- Fuelled emission loop of the sequencer; the fuel is the number of
remaining nodes, which drops by exactly one per emission. -/
def topoIdxFuel (edges : List (Nat × Nat)) : Nat → List Nat → List Nat
  | 0, _ => []
  | _ + 1, [] => []
  | fuel + 1, x :: rest =>
    let i := pickNext edges (x :: rest)
    i :: topoIdxFuel edges fuel ((x :: rest).erase i)

/-- Emit all remaining node indices, each exactly once. -/
def topoIdx (edges : List (Nat × Nat)) (r : List Nat) : List Nat :=
  topoIdxFuel edges r.length r

/-- Modelled from the spec: the topological sequencer (`Dag::topo` of the
external `dag` crate).  Spec section 4.2 requires an indegree/depth based
deterministic ordering that emits every node exactly once and breaks
dependency cycles deterministically instead of failing; modelled as Kahn-style
emission with a deterministic cycle-breaking fallback. -/
def Dag.topo (d : Dag) : List String :=
  (topoIdx d.edges (List.range d.nodes.length)).map (fun i => d.nodes.getD i "")

/-- Limit concurrency to 8 jobs (src/main.rs line 35). -/
def CONCURRENCY_LIMIT : Nat := 8

/-- Modelled from the spec where it touches scheduling: `try_collect` of the
`futures` crate (main.rs line 216) resolves the stream of fetch results into
`Ok` of all values when every fetch succeeds and short-circuits with the
first error otherwise; the nondeterministic completion order of
`buffer_unordered` is abstracted by resolving in queue order, which the
claims settled here do not depend on. -/
def tryCollect : List (Except MainError HashedPackage) → Except MainError (List HashedPackage)
  | [] => .ok []
  | .error e :: _ => .error e
  | .ok a :: rest => (tryCollect rest).map (fun l => a :: l)

/-- The fetch pipeline of main.rs lines 211-217 (`fetch_all` in the spec):
map each package through the fetch operation and collect with `try_collect`.
The network fetch itself (main.rs `fetch`) performs IO and is abstracted as
the `fetcher` argument. -/
def fetch_all (fetcher : Package → Except MainError HashedPackage) (pkgs : List Package) :
    Except MainError (List HashedPackage) :=
  tryCollect (pkgs.map fetcher)

/-- State of the fetch dispatcher: queued, in-flight and finished fetch
identifiers. -/
structure FetchState where
  pending : List Nat
  inFlight : List Nat
  finished : List Nat
  deriving DecidableEq

/-- Modelled from the spec: the scheduling behaviour of
`buffer_unordered(CONCURRENCY_LIMIT)` (main.rs line 215) is external crate
code; spec section 5 describes it as semaphore-gated dispatch: a queued fetch
may start only while fewer than `limit` fetches are in flight, and any
in-flight fetch may finish at any time. -/
inductive FetchStep (limit : Nat) : FetchState → FetchState → Prop
  | start (i : Nat) (rest fl fin : List Nat) :
      fl.length < limit →
      FetchStep limit ⟨i :: rest, fl, fin⟩ ⟨rest, i :: fl, fin⟩
  | finish (i : Nat) (pend fl1 fl2 fin : List Nat) :
      FetchStep limit ⟨pend, fl1 ++ i :: fl2, fin⟩ ⟨pend, fl1 ++ fl2, i :: fin⟩

/-- Reachability of dispatcher states via `FetchStep`. -/
inductive FetchReachable (limit : Nat) (init : FetchState) : FetchState → Prop
  | refl : FetchReachable limit init init
  | step {s s' : FetchState} :
      FetchReachable limit init s → FetchStep limit s s' → FetchReachable limit init s'

/-- A fetched artifact (src/converter.rs, `HashedPackage`): the finalised
hash (32 bytes, modelled as a list of naturals) and the package itself. -/
structure HashedPackage where
  hash : List Nat
  package : Package
  deriving DecidableEq

/-- The error enum of src/converter.rs (`Error`).  The parse-error payload of
the `Url` variant is dropped. -/
inductive ConverterError where
  | path
  | noPackage
  | url
  deriving DecidableEq

/-- Modelled from the spec: `Url::join` of the external `url` crate.  The
spec (section 3) only requires resolving a relative artifact URI against the
origin; the origin used in main.rs ends in a slash and every package URI is a
relative path, so resolution is modelled as concatenation (and never fails). -/
def urlJoin (base rel : String) : String := base ++ rel

/-- Lower-case hex digit of a value below 16 (`const_hex::encode`). -/
def hexDigit (n : Nat) : Char :=
  if n < 10 then Char.ofNat (48 + n) else Char.ofNat (87 + n)

/-- Lower-case hex encoding of a byte list (`const_hex::encode` in
converter.rs line 31). -/
def hexEncode (bytes : List Nat) : String :=
  String.mk (bytes.flatMap (fun b => [hexDigit (b / 16 % 16), hexDigit (b % 16)]))

/-- Split a character list at every slash. -/
def splitSlashAux : List Char → List Char → List String
  | [], cur => [String.mk cur.reverse]
  | c :: rest, cur =>
    if c = '/' then String.mk cur.reverse :: splitSlashAux rest []
    else splitSlashAux rest (c :: cur)

/-- Slash-separated segments of a string (character-wise, so that the kernel
can evaluate it). -/
def splitSlash (s : String) : List String := splitSlashAux s.data []

/-- Modelled from the spec where it touches the external `url`/`std::path`
crates: the final file-name component of a path (converter.rs lines 69-70),
i.e. the last nonempty slash-separated segment, `Error::Path` when there is
none. -/
def fileNameOf (path : String) : Option String :=
  ((splitSlash path).filter (fun s => s ≠ "")).getLast?

/-- The `description.replace('\n', " ")` of converter.rs line 53: every
newline character becomes a space.  Implemented character-wise because the
kernel cannot evaluate `String.replace`. -/
def replaceNl (s : String) : String :=
  String.mk (s.data.map (fun c => if c = '\n' then ' ' else c))

/-- The loop of `generate_install_script` (converter.rs lines 66-73): two
script lines per artifact, failing with `Error::Path` when an artifact URI
has no file name. -/
def installZips : List HashedPackage → String → Except ConverterError (List String)
  | [], _ => .ok []
  | pkg :: rest, base_uri =>
    match fileNameOf (urlJoin base_uri pkg.package.package_uri) with
    | none => .error .path
    | some name =>
      match installZips rest base_uri with
      | .error e => .error e
      | .ok zs =>
        .ok (("    unzip -o %(sourcedir)/" ++ name)
          :: "    tar xf install.tar.xz -C %(installroot)" :: zs)

/-- `generate_install_script` of src/converter.rs lines 65-79. -/
def generate_install_script (input : List HashedPackage) (base_uri : String) :
    Except ConverterError String :=
  match installZips input base_uri with
  | .error e => .error e
  | .ok zips => .ok ("    %install_dir %(installroot)\n" ++ String.intercalate "\n" zips)

/-- The recipe line list of `convert` (converter.rs lines 24-61), before the
final newline join.  The outer `Option` models panics: converter.rs lines
45-46 index `history.updates[0]` without a guard, so a first member with an
empty update history panics, modelled as `none`.  All `Result` outcomes of
the source are `some`. -/
def convert_lines (input : List HashedPackage) (base_uri : String) :
    Option (Except ConverterError (List String)) :=
  let upstreams := input.map (fun pkg =>
    " - " ++ urlJoin base_uri pkg.package.package_uri
      ++ ":\n    unpack: false\n    hash: " ++ hexEncode pkg.hash)
  match input.head? with
  | none => some (.error .noPackage)
  | some sample =>
    match sample.package.history.updates.head? with
    | none => none
    | some upd =>
      match generate_install_script input base_uri with
      | .error e => some (.error e)
      | .ok script =>
        some (.ok [
          "name: " ++ sample.package.source.name,
          "version: \"" ++ upd.version ++ "\"",
          "release: " ++ toString upd.release,
          "homepage: " ++ sample.package.source.homepage.getD "no-homepage-set",
          "upstreams:",
          String.intercalate "\n" upstreams,
          "summary: " ++ sample.package.summary,
          "description: |\n    " ++ replaceNl sample.package.description,
          "strip: false",
          "license: ",
          String.intercalate "\n" (sample.package.licenses.map (fun l => "    - " ++ l)),
          "install:  |",
          script])

/-- `convert` of src/converter.rs lines 24-63: the recipe lines joined with
newlines.  `none` models the unguarded-index panic, `some (.error e)` the
`Err` returns of the source. -/
def convert (input : List HashedPackage) (base_uri : String) :
    Option (Except ConverterError String) :=
  (convert_lines input base_uri).map (fun r => r.map (String.intercalate "\n"))

/-- One insertion step of the grouping loop of main.rs lines 220-228: push
the artifact onto the bucket of its key when the key is present, otherwise
create a singleton bucket.  The `HashMap` of the source is modelled as an
association list; the source's map iteration order is unspecified, and no
claim settled here depends on the order of the buckets themselves. -/
def addToBucket (buckets : List (String × List HashedPackage)) (key : String)
    (r : HashedPackage) : List (String × List HashedPackage) :=
  match buckets with
  | [] => [(key, [r])]
  | (k, v) :: rest =>
    if k == key then (k, v ++ [r]) :: rest else (k, v) :: addToBucket rest key r

/-- The grouping loop of main.rs lines 220-228 (`group_by_source` in the
spec): fold every fetched artifact into the bucket of its source name. -/
def group_by_source (results : List HashedPackage) : List (String × List HashedPackage) :=
  results.foldl (fun b r => addToBucket b r.package.source.name r) []

/-- Bucket of a key in a grouped result; empty when the key is absent. -/
def lookupBucket (buckets : List (String × List HashedPackage)) (s : String) :
    List HashedPackage :=
  match buckets.find? (fun kv => kv.1 == s) with
  | some kv => kv.2
  | none => []

/-- Concrete package used by several witnesses. -/
def mkPackage (n src : String) (ds : Option (List String)) : Package :=
  { name := n
    summary := "sum-" ++ n
    description := "desc-" ++ n
    part_of := none
    package_uri := "pool/" ++ n ++ ".eopkg"
    package_size := 1
    package_hash := "h"
    history := { updates := [{ release := 1, date := "2023-01-01", version := "1.0" }] }
    source := { name := src, homepage := none }
    licenses := ["MIT"]
    run_deps := ds.map (fun l => { deps := l.map (fun v => { value := v }) }) }

/-- Package A of the A-to-B-to-A cycle example. -/
def pkgA : Package := mkPackage "A" "A" (some ["B"])

/-- Package B of the A-to-B-to-A cycle example. -/
def pkgB : Package := mkPackage "B" "B" (some ["A"])

/-- Catalog whose dependency data is the cycle A-to-B-to-A. -/
def catalogAB : Catalog := { packages := [pkgA, pkgB] }

/-- A one-package catalog with no dependencies, for witnesses. -/
def pkgSolo : Package := mkPackage "a" "a" none

/-- Catalog holding only `pkgSolo`. -/
def catalogSolo : Catalog := { packages := [pkgSolo] }

/-- Three packages queued by the failing-fetch example batch. -/
def batch3 : List Package := [mkPackage "a" "a" none, mkPackage "b" "b" none, mkPackage "c" "c" none]

/-- Fetcher that fails (with a network error) exactly on package `b`. -/
def failOnB : Package → Except MainError HashedPackage :=
  fun p => if p.name == "b" then .error .reqwest else .ok { hash := [], package := p }

/-- Fetched artifacts with source names zlib, zlib, nano. -/
def hpZlib1 : HashedPackage := { hash := [1], package := mkPackage "zlib" "zlib" none }

/-- Second zlib artifact of the grouping example. -/
def hpZlib2 : HashedPackage := { hash := [2], package := mkPackage "zlib-devel" "zlib" none }

/-- The nano artifact of the grouping example. -/
def hpNano : HashedPackage := { hash := [3], package := mkPackage "nano" "nano" none }

/-- Artifact with a nonempty update history, for converter witnesses. -/
def hpGood : HashedPackage := { hash := [0], package := mkPackage "zlib" "zlib" none }

/-- Artifact whose package has an empty update history: feeding it first to
`convert` reproduces the unguarded `updates[0]` access. -/
def hpNoHistory : HashedPackage :=
  { hash := [0],
    package :=
      { mkPackage "broken" "broken" none with history := { updates := [] } } }

/-- A concrete two-node dag with one edge, for sequencer witnesses. -/
def dagW : Dag := { nodes := ["x", "y"], edges := [(0, 1)] }

/-! ### Grouping: helper lemmas -/

theorem lookupBucket_nil (s : String) : lookupBucket [] s = [] := rfl

theorem lookupBucket_addToBucket (acc : List (String × List HashedPackage)) (k s : String)
    (r : HashedPackage) :
    lookupBucket (addToBucket acc k r) s
      = lookupBucket acc s ++ (if k = s then [r] else []) := by
  induction acc with
  | nil =>
    by_cases h : k = s
    · subst h; simp [addToBucket, lookupBucket]
    · simp [addToBucket, lookupBucket, List.find?, h, beq_eq_false_iff_ne.mpr h]
  | cons kv rest ih =>
    obtain ⟨a, v⟩ := kv
    by_cases hak : a = k
    · subst hak
      by_cases has : a = s
      · subst has
        simp [addToBucket, lookupBucket, List.find?]
      · simp [addToBucket, lookupBucket, List.find?, beq_eq_false_iff_ne.mpr has, has]
    · have hbk : (a == k) = false := beq_eq_false_iff_ne.mpr hak
      by_cases has : a = s
      · have hbs : (a == s) = true := beq_iff_eq.mpr has
        have hks : ¬k = s := fun hh => hak (has.trans hh.symm)
        simp [addToBucket, lookupBucket, List.find?, hbk, hbs, hks]
      · have hbs : (a == s) = false := beq_eq_false_iff_ne.mpr has
        simp only [addToBucket, hbk, Bool.false_eq_true, if_false]
        simp only [lookupBucket, List.find?, hbs]
        exact ih

theorem lookupBucket_foldl (rs : List HashedPackage) :
    ∀ (acc : List (String × List HashedPackage)) (s : String),
    lookupBucket (rs.foldl (fun b r => addToBucket b r.package.source.name r) acc) s
      = lookupBucket acc s ++ rs.filter (fun r => r.package.source.name == s) := by
  induction rs with
  | nil => intro acc s; simp
  | cons r rest ih =>
    intro acc s
    simp only [List.foldl_cons, ih, lookupBucket_addToBucket]
    by_cases h : r.package.source.name = s
    · simp [List.filter_cons, h, List.append_assoc]
    · simp [List.filter_cons, h, beq_eq_false_iff_ne.mpr h]

/-- Within each bucket, grouping keeps exactly the artifacts of that source
in input order. -/
theorem lookupBucket_group_by_source (rs : List HashedPackage) (s : String) :
    lookupBucket (group_by_source rs) s
      = rs.filter (fun r => r.package.source.name == s) := by
  simpa using lookupBucket_foldl rs [] s

theorem keys_addToBucket (acc : List (String × List HashedPackage)) (k : String)
    (r : HashedPackage) :
    (addToBucket acc k r).map Prod.fst
      = if k ∈ acc.map Prod.fst then acc.map Prod.fst else acc.map Prod.fst ++ [k] := by
  induction acc with
  | nil => simp [addToBucket]
  | cons kv rest ih =>
    obtain ⟨a, v⟩ := kv
    by_cases hak : a = k
    · subst hak; simp [addToBucket]
    · have hbk : (a == k) = false := beq_eq_false_iff_ne.mpr hak
      simp only [addToBucket, hbk, Bool.false_eq_true, if_false, List.map_cons, ih]
      by_cases hmem : k ∈ rest.map Prod.fst
      · simp [hmem, Ne.symm hak]
      · simp [hmem, Ne.symm hak]

theorem keys_nodup_foldl (rs : List HashedPackage) :
    ∀ (acc : List (String × List HashedPackage)),
    (acc.map Prod.fst).Nodup →
    ((rs.foldl (fun b r => addToBucket b r.package.source.name r) acc).map Prod.fst).Nodup := by
  induction rs with
  | nil => intro acc h; simpa using h
  | cons r rest ih =>
    intro acc h
    simp only [List.foldl_cons]
    apply ih
    rw [keys_addToBucket]
    by_cases hmem : r.package.source.name ∈ acc.map Prod.fst
    · simpa [hmem] using h
    · simp only [hmem, if_neg, not_false_iff]
      simpa [List.nodup_append, hmem] using h

theorem keys_mem_foldl (rs : List HashedPackage) :
    ∀ (acc : List (String × List HashedPackage)) (s : String),
    (s ∈ (rs.foldl (fun b r => addToBucket b r.package.source.name r) acc).map Prod.fst
      ↔ s ∈ acc.map Prod.fst ∨ s ∈ rs.map (fun r => r.package.source.name)) := by
  induction rs with
  | nil => intro acc s; simp
  | cons r rest ih =>
    intro acc s
    simp only [List.foldl_cons, ih, keys_addToBucket, List.map_cons, List.mem_cons]
    by_cases hmem : r.package.source.name ∈ acc.map Prod.fst
    · simp only [hmem, if_pos]
      constructor
      · rintro (h | h)
        · exact Or.inl h
        · exact Or.inr (Or.inr h)
      · rintro (h | h | h)
        · exact Or.inl h
        · exact Or.inl (h ▸ hmem)
        · exact Or.inr h
    · simp only [hmem, if_neg, not_false_iff, List.mem_append, List.mem_singleton]
      tauto

theorem head?_filter_eq_find? (p : HashedPackage → Bool) (l : List HashedPackage) :
    (l.filter p).head? = l.find? p := by
  induction l with
  | nil => rfl
  | cons a t ih =>
    by_cases h : p a
    · simp [List.filter_cons, h]
    · simp [List.filter_cons, h, ih]

/-! ### Grouping: claims C7 and C10 -/

/-- C7: grouping by source partitions the fetched artifacts — the bucket keys
are exactly the distinct source names (no key appears twice), every artifact
lies in exactly the bucket keyed by its package's source name, and on input
with source names zlib, zlib, nano the result is exactly two groups, zlib
with 2 members and nano with 1. -/
theorem claim_C7 :
    (∀ rs : List HashedPackage, ((group_by_source rs).map Prod.fst).Nodup) ∧
    (∀ (rs : List HashedPackage) (s : String),
      s ∈ (group_by_source rs).map Prod.fst ↔ s ∈ rs.map (fun r => r.package.source.name)) ∧
    (∀ (rs : List HashedPackage) (s : String) (r : HashedPackage),
      r ∈ lookupBucket (group_by_source rs) s ↔ r ∈ rs ∧ r.package.source.name = s) ∧
    group_by_source [hpZlib1, hpZlib2, hpNano]
      = [("zlib", [hpZlib1, hpZlib2]), ("nano", [hpNano])] := by
  refine ⟨?_, ?_, ?_, ?_⟩
  · intro rs
    exact keys_nodup_foldl rs [] (by simp)
  · intro rs s
    simpa using keys_mem_foldl rs [] s
  · intro rs s r
    rw [lookupBucket_group_by_source]
    simp [List.mem_filter]
  · rfl

/-- C10: grouping preserves encounter order — each bucket is exactly the
subsequence of the input carrying that source name, in input order, and
hence the bucket's first element is the earliest artifact of that source in
the pipeline's result list. -/
theorem claim_C10 : ∀ (rs : List HashedPackage) (s : String),
    lookupBucket (group_by_source rs) s
      = rs.filter (fun r => r.package.source.name == s) ∧
    (lookupBucket (group_by_source rs) s).head?
      = rs.find? (fun r => r.package.source.name == s) := by
  intro rs s
  refine ⟨lookupBucket_group_by_source rs s, ?_⟩
  rw [lookupBucket_group_by_source, head?_filter_eq_find?]

/-! ### Converter: helper lemmas and claims C8 and C9 -/

theorem installZips_error_path : ∀ (input : List HashedPackage) (u : String)
    (e : ConverterError), installZips input u = .error e → e = .path := by
  intro input
  induction input with
  | nil => intro u e h; simp [installZips] at h
  | cons hp rest ih =>
    intro u e h
    rw [installZips] at h
    cases hfn : fileNameOf (urlJoin u hp.package.package_uri) with
    | none =>
      rw [hfn] at h
      simp only [Except.error.injEq] at h
      exact h.symm
    | some name =>
      rw [hfn] at h
      cases hz : installZips rest u with
      | error e2 =>
        rw [hz] at h
        simp only [Except.error.injEq] at h
        exact h ▸ ih u e2 hz
      | ok zs =>
        rw [hz] at h
        simp at h

theorem generate_install_script_error_path (input : List HashedPackage) (u : String)
    (e : ConverterError) : generate_install_script input u = .error e → e = .path := by
  intro h
  rw [generate_install_script] at h
  cases hz : installZips input u with
  | error e2 =>
    rw [hz] at h
    simp only [Except.error.injEq] at h
    exact h ▸ installZips_error_path input u e2 hz
  | ok zs => rw [hz] at h; simp at h

/-- C8: for every non-empty group `convert` takes the descriptive fields
(homepage, summary, description, license list) of the recipe from the first
member of the group, and it fails with the no-artifacts error `NoPackage`
exactly when the group is empty. -/
theorem claim_C8 :
    (∀ u : String, convert [] u = some (.error .noPackage)) ∧
    (∀ (input : List HashedPackage) (u : String), input ≠ [] →
      convert input u ≠ some (.error .noPackage)) ∧
    (∀ (input : List HashedPackage) (u : String) (hp : HashedPackage)
        (L : List String), input.head? = some hp →
      convert_lines input u = some (.ok L) →
      L.get? 3 = some ("homepage: " ++ hp.package.source.homepage.getD "no-homepage-set") ∧
      L.get? 6 = some ("summary: " ++ hp.package.summary) ∧
      L.get? 7 = some ("description: |\n    " ++ replaceNl hp.package.description) ∧
      L.get? 10 = some (String.intercalate "\n"
        (hp.package.licenses.map (fun l => "    - " ++ l)))) := by
  refine ⟨fun u => rfl, ?_, ?_⟩
  · intro input u hne h
    cases input with
    | nil => exact hne rfl
    | cons hp t =>
      simp only [convert, convert_lines, List.head?_cons] at h
      cases hu : hp.package.history.updates.head? with
      | none => rw [hu] at h; simp at h
      | some upd =>
        rw [hu] at h
        cases hs : generate_install_script (hp :: t) u with
        | error e =>
          rw [hs] at h
          have := generate_install_script_error_path (hp :: t) u e hs
          subst this
          simp [Except.map] at h
        | ok script =>
          rw [hs] at h
          simp [Except.map] at h
  · intro input u hp L hhead hL
    cases input with
    | nil => simp at hhead
    | cons hp0 t =>
      have hh : hp = hp0 := by
        simpa using hhead.symm
      subst hh
      simp only [convert_lines, List.head?_cons] at hL
      split at hL
      · simp at hL
      · split at hL
        · simp at hL
        · simp only [Option.some.injEq, Except.ok.injEq] at hL
          subst hL
          exact ⟨rfl, rfl, rfl, rfl⟩

/-- Witness for C8 at concrete inputs: the empty group yields `NoPackage`, a
singleton group does not, and its recipe lines carry the first member's
summary line. -/
theorem claim_C8_witness :
    convert [] "https://x/" = some (.error .noPackage) ∧
    (([hpGood] : List HashedPackage) ≠ [] ∧
      convert [hpGood] "https://x/" ≠ some (.error .noPackage)) ∧
    (∃ L, convert_lines [hpGood] "https://x/" = some (.ok L) ∧
      L.get? 6 = some ("summary: " ++ hpGood.package.summary)) := by
  refine ⟨claim_C8.1 "https://x/", ⟨by simp, claim_C8.2.1 [hpGood] "https://x/" (by simp)⟩, ?_⟩
  have hL : convert_lines [hpGood] "https://x/" = some (.ok
      ["name: zlib", "version: \"1.0\"", "release: 1", "homepage: no-homepage-set",
        "upstreams:", " - https://x/pool/zlib.eopkg:\n    unpack: false\n    hash: 00",
        "summary: sum-zlib", "description: |\n    desc-zlib", "strip: false", "license: ",
        "    - MIT", "install:  |",
        "    %install_dir %(installroot)\n    unzip -o %(sourcedir)/zlib.eopkg\n    tar xf install.tar.xz -C %(installroot)"]) := by rfl
  exact ⟨_, hL, (claim_C8.2.2 [hpGood] "https://x/" hpGood _ rfl hL).2.1⟩

/-- C9: `convert` indexes the first member's update history at position 0
without a guard (converter.rs lines 45-46): on a non-empty input whose first
member has an empty `history.updates` list it panics — modelled as the `none`
outcome — instead of returning a `Result` error. -/
theorem claim_C9 :
    ([hpNoHistory] : List HashedPackage) ≠ [] ∧
    hpNoHistory.package.history.updates = [] ∧
    convert [hpNoHistory] "https://x/" = none := by
  exact ⟨by simp, rfl, rfl⟩

/-! ### Fetch pipeline: claims C2 and C3 -/

/-- Counterexample to C2 as stated: in a batch of three queued fetches where
exactly the middle one fails, the pipeline's overall result is the bare
error — `try_collect` aborts — so the two successful fetches are not
returned and no failure list is produced. -/
theorem claim_C2_counterexample :
    fetch_all failOnB batch3 = .error .reqwest := by rfl

/-- C2 (amended): when any fetch in the batch fails, the pipeline aborts
with an error as its single overall result instead of returning the
successful fetches alongside a failure list. -/
theorem claim_C2_amended : ∀ (pkgs : List Package)
    (f : Package → Except MainError HashedPackage),
    (∃ p, p ∈ pkgs ∧ ∀ hp, f p ≠ .ok hp) → ∃ e, fetch_all f pkgs = .error e := by
  intro pkgs
  induction pkgs with
  | nil =>
    rintro f ⟨p, hmem, -⟩
    simp at hmem
  | cons q rest ih =>
    rintro f ⟨p, hmem, hfail⟩
    cases hq : f q with
    | error e => exact ⟨e, by simp [fetch_all, List.map_cons, tryCollect, hq]⟩
    | ok a =>
      rcases List.mem_cons.mp hmem with h | h
      · exact absurd hq (h ▸ hfail a)
      · obtain ⟨e, he⟩ := ih f ⟨p, h, hfail⟩
        refine ⟨e, ?_⟩
        simp only [fetch_all, List.map_cons, tryCollect, hq] at he ⊢
        rw [he]
        rfl

/-- Witness for the amended C2 at the concrete failing batch. -/
theorem claim_C2_amended_witness : ∃ e, fetch_all failOnB batch3 = .error e := by
  apply claim_C2_amended
  refine ⟨mkPackage "b" "b" none, by simp [batch3], ?_⟩
  intro hp h
  simp [failOnB, mkPackage] at h

/-- C3: at every instant of the fetch dispatch — every state reachable from
an initial state with any queue — the number of started-but-not-finished
fetches is at most `CONCURRENCY_LIMIT` (8). -/
theorem claim_C3 : ∀ (queue : List Nat) (s : FetchState),
    FetchReachable CONCURRENCY_LIMIT { pending := queue, inFlight := [], finished := [] } s →
    s.inFlight.length ≤ CONCURRENCY_LIMIT := by
  intro queue s h
  induction h with
  | refl => simp
  | step hr hs ih =>
    cases hs with
    | start i rest fl fin hlt => simpa using hlt
    | finish i pend fl1 fl2 fin =>
      simp only [List.length_append, List.length_cons] at ih ⊢
      omega

/-- Witness for C3: a concrete reachable state with one in-flight fetch. -/
theorem claim_C3_witness :
    ({ pending := [1], inFlight := [0], finished := [] } : FetchState).inFlight.length
      ≤ CONCURRENCY_LIMIT :=
  claim_C3 [0, 1] _ (.step .refl (.start 0 [1] [] [] (by decide)))

/-! ### Sequencer: claim C6 -/

theorem pickNext_mem (edges : List (Nat × Nat)) (x : Nat) (rest : List Nat) :
    pickNext edges (x :: rest) ∈ x :: rest := by
  cases hf : (x :: rest).find? (fun j => ! hasIncoming edges (x :: rest) j) with
  | none => simp [pickNext, hf]
  | some j =>
    have := List.mem_of_find?_eq_some hf
    simpa [pickNext, hf] using this

theorem topoIdxFuel_perm (edges : List (Nat × Nat)) :
    ∀ (fuel : Nat) (r : List Nat), r.length ≤ fuel → (topoIdxFuel edges fuel r).Perm r := by
  intro fuel
  induction fuel with
  | zero =>
    intro r hr
    have hnil : r = [] := List.eq_nil_of_length_eq_zero (Nat.le_zero.mp hr)
    subst hnil
    simp [topoIdxFuel]
  | succ n ih =>
    intro r hr
    cases r with
    | nil => simp [topoIdxFuel]
    | cons x rest =>
      have hmem : pickNext edges (x :: rest) ∈ x :: rest := pickNext_mem edges x rest
      have herase : ((x :: rest).erase (pickNext edges (x :: rest))).length ≤ n := by
        rw [List.length_erase_of_mem hmem]
        simp only [List.length_cons] at hr ⊢
        omega
      have hstep : topoIdxFuel edges (n + 1) (x :: rest)
          = pickNext edges (x :: rest)
            :: topoIdxFuel edges n ((x :: rest).erase (pickNext edges (x :: rest))) := rfl
      rw [hstep]
      exact ((ih _ herase).cons _).trans (List.perm_cons_erase hmem).symm

theorem topoIdx_perm (edges : List (Nat × Nat)) (r : List Nat) :
    (topoIdx edges r).Perm r :=
  topoIdxFuel_perm edges r.length r (Nat.le_refl _)

theorem range_map_getD (l : List String) :
    (List.range l.length).map (fun i => l.getD i "") = l := by
  induction l with
  | nil => rfl
  | cons a t ih =>
    rw [List.length_cons, List.range_succ_eq_map]
    simp only [List.map_cons, List.map_map]
    refine congrArg (a :: ·) ?_
    simpa [Function.comp_def, Nat.succ_eq_add_one, List.getElem?_cons_succ, List.getD] using ih

/-- C6: for every dependency graph — cyclic graphs and isolated nodes
included — the topological sequencer emits a permutation of exactly the
graph's node names (no omissions, no duplicates once node names are unique,
which the builder guarantees), and it never fails. -/
theorem claim_C6 : ∀ d : Dag,
    (d.topo).Perm d.nodes ∧ (d.nodes.Nodup → d.topo.Nodup) := by
  intro d
  have h1 := (topoIdx_perm d.edges (List.range d.nodes.length)).map (fun i => d.nodes.getD i "")
  rw [range_map_getD d.nodes] at h1
  have hperm : (d.topo).Perm d.nodes := h1
  exact ⟨hperm, fun hn => hperm.nodup_iff.mpr hn⟩

/-- Witness for C6 at a concrete two-node graph with nodup node names. -/
theorem claim_C6_witness : dagW.nodes.Nodup ∧ dagW.topo.Nodup :=
  ⟨by decide, (claim_C6 dagW).2 (by decide)⟩

/-! ### Closure builder: graph helper lemmas -/

theorem idxOfAux_eq_none (n : String) : ∀ (l : List String) (i : Nat),
    idxOfAux n l i = none ↔ n ∉ l := by
  intro l
  induction l with
  | nil => intro i; simp [idxOfAux]
  | cons m rest ih =>
    intro i
    by_cases h : m = n
    · subst h; simp [idxOfAux]
    · simp [idxOfAux, beq_eq_false_iff_ne.mpr h, ih, Ne.symm h]

theorem get_index_eq_none (d : Dag) (n : String) : d.get_index n = none ↔ n ∉ d.nodes :=
  idxOfAux_eq_none n d.nodes 0

theorem mem_of_get_index_some {d : Dag} {n : String} {i : Nat}
    (h : d.get_index n = some i) : n ∈ d.nodes := by
  by_contra hmem
  rw [(get_index_eq_none d n).mpr hmem] at h
  cases h

theorem add_node_spec (d : Dag) (n : String) (d2 : Dag) (i : Nat)
    (h : d.add_node_or_get_index n = (d2, i)) :
    ((d2.nodes = d.nodes ∧ n ∈ d.nodes) ∨ (d2.nodes = d.nodes ++ [n] ∧ n ∉ d.nodes)) := by
  unfold Dag.add_node_or_get_index at h
  cases hi : d.get_index n with
  | some j =>
    rw [hi] at h
    cases h
    exact Or.inl ⟨rfl, mem_of_get_index_some hi⟩
  | none =>
    rw [hi] at h
    cases h
    exact Or.inr ⟨rfl, (get_index_eq_none d n).mp hi⟩

theorem add_edge_nodes (d : Dag) (i j : Nat) : (d.add_edge i j).nodes = d.nodes := rfl

theorem processDep_facts (g : Dag) (next : List String) (ourIdx : Nat) (dep : String)
    (g2 : Dag) (next2 : List String) (h : processDep g next ourIdx dep = (g2, next2)) :
    (∀ m ∈ g.nodes, m ∈ g2.nodes) ∧
    (∀ m ∈ next, m ∈ next2) ∧
    (g.nodes.Nodup → g2.nodes.Nodup) ∧
    (∀ m ∈ g2.nodes, m ∈ g.nodes ∨ m = dep) ∧
    (∀ m ∈ next2, m ∈ next ∨ m = dep) ∧
    dep ∈ g2.nodes ∧
    (∀ m ∈ g2.nodes, m ∈ g.nodes ∨ m ∈ next2) ∧
    g.nodes.length + next2.length = g2.nodes.length + next.length := by
  unfold processDep at h
  cases hi : g.get_index dep with
  | some ci =>
    rw [hi] at h
    cases h
    have hdep : dep ∈ g.nodes := mem_of_get_index_some hi
    rw [add_edge_nodes]
    exact ⟨fun m hm => hm, fun m hm => hm, id, fun m hm => Or.inl hm, fun m hm => Or.inl hm,
      hdep, fun m hm => Or.inl hm, by omega⟩
  | none =>
    rw [hi] at h
    have hnmem : dep ∉ g.nodes := (get_index_eq_none g dep).mp hi
    cases ha : g.add_node_or_get_index dep with
    | mk gA idxA =>
      rw [ha] at h
      cases h
      have hA : gA.nodes = g.nodes ++ [dep] := by
        rcases add_node_spec g dep gA idxA ha with ⟨_, hmem⟩ | ⟨he, _⟩
        · exact absurd hmem hnmem
        · exact he
      rw [add_edge_nodes, hA]
      refine ⟨fun m hm => List.mem_append_left _ hm, fun m hm => List.mem_append_left _ hm,
        ?_, ?_, ?_, ?_, ?_, ?_⟩
      · intro hn
        simp [List.nodup_append, hn, hnmem]
      · intro m hm
        rcases List.mem_append.mp hm with hl | hr
        · exact Or.inl hl
        · exact Or.inr (List.mem_singleton.mp hr)
      · intro m hm
        rcases List.mem_append.mp hm with hl | hr
        · exact Or.inl hl
        · exact Or.inr (List.mem_singleton.mp hr)
      · exact List.mem_append_right _ (List.mem_singleton.mpr rfl)
      · intro m hm
        rcases List.mem_append.mp hm with hl | hr
        · exact Or.inl hl
        · exact Or.inr (List.mem_append_right _ hr)
      · simp only [List.length_append, List.length_singleton]
        omega

theorem processDeps_facts (ourIdx : Nat) : ∀ (ds : List Dependency) (g : Dag)
    (next : List String) (g2 : Dag) (next2 : List String),
    processDeps ourIdx g next ds = (g2, next2) →
    (∀ m ∈ g.nodes, m ∈ g2.nodes) ∧
    (∀ m ∈ next, m ∈ next2) ∧
    (g.nodes.Nodup → g2.nodes.Nodup) ∧
    (∀ m ∈ g2.nodes, m ∈ g.nodes ∨ m ∈ ds.map Dependency.value) ∧
    (∀ m ∈ next2, m ∈ next ∨ m ∈ ds.map Dependency.value) ∧
    (∀ d ∈ ds, d.value ∈ g2.nodes) ∧
    (∀ m ∈ g2.nodes, m ∈ g.nodes ∨ m ∈ next2) ∧
    g.nodes.length + next2.length = g2.nodes.length + next.length := by
  intro ds
  induction ds with
  | nil =>
    intro g next g2 next2 h
    simp only [processDeps] at h
    cases h
    exact ⟨fun m hm => hm, fun m hm => hm, id, fun m hm => Or.inl hm, fun m hm => Or.inl hm,
      by simp, fun m hm => Or.inl hm, by omega⟩
  | cons d rest ih =>
    intro g next g2 next2 h
    simp only [processDeps] at h
    cases hr : processDep g next ourIdx d.value with
    | mk g1 next1 =>
      rw [hr] at h
      obtain ⟨pd1, pd2, pd3, pd4, pd5, pd6, pd7, pd8⟩ :=
        processDep_facts g next ourIdx d.value g1 next1 hr
      obtain ⟨ih1, ih2, ih3, ih4, ih5, ih6, ih7, ih8⟩ := ih g1 next1 g2 next2 h
      refine ⟨fun m hm => ih1 m (pd1 m hm), fun m hm => ih2 m (pd2 m hm),
        fun hn => ih3 (pd3 hn), ?_, ?_, ?_, ?_, by omega⟩
      · intro m hm
        rcases ih4 m hm with hm1 | hm1
        · rcases pd4 m hm1 with hm2 | hm2
          · exact Or.inl hm2
          · exact Or.inr (by simp [hm2])
        · exact Or.inr (by simp [hm1])
      · intro m hm
        rcases ih5 m hm with hm1 | hm1
        · rcases pd5 m hm1 with hm2 | hm2
          · exact Or.inl hm2
          · exact Or.inr (by simp [hm2])
        · exact Or.inr (by simp [hm1])
      · intro e he
        rcases List.mem_cons.mp he with rfl | he2
        · exact ih1 _ pd6
        · exact ih6 e he2
      · intro m hm
        rcases ih7 m hm with hm1 | hm1
        · rcases pd7 m hm1 with hm2 | hm2
          · exact Or.inl hm2
          · exact Or.inr (ih2 m hm2)
        · exact Or.inr hm1

theorem get_name_eq {c : Catalog} {n : String} {p : Package} (h : c.get n = some p) :
    p.name = n := by
  have hfind := List.find?_some h
  exact eq_of_beq (by simpa using hfind)

theorem get_mem_packages {c : Catalog} {n : String} {p : Package} (h : c.get n = some p) :
    p ∈ c.packages :=
  List.mem_of_find?_eq_some h

theorem name_mem_allNames {c : Catalog} {n : String} {p : Package} (h : c.get n = some p) :
    n ∈ allNames c := by
  rw [← get_name_eq h]
  exact List.mem_flatMap.mpr ⟨p, get_mem_packages h, by simp⟩

theorem dep_mem_allNames {c : Catalog} {n : String} {p : Package} (h : c.get n = some p) :
    ∀ d ∈ depNames p, d ∈ allNames c := by
  intro d hd
  exact List.mem_flatMap.mpr ⟨p, get_mem_packages h, by simp [hd]⟩

theorem processPkg_ok_facts (c : Catalog) (g : Dag) (next : List String) (pkg : String)
    (g1 : Dag) (next1 : List String) (h : processPkg c g next pkg = .ok (g1, next1)) :
    ∃ p, c.get pkg = some p ∧
      ((∀ m ∈ g.nodes, m ∈ g1.nodes) ∧
       (∀ m ∈ next, m ∈ next1) ∧
       (g.nodes.Nodup → g1.nodes.Nodup) ∧
       (∀ m ∈ g1.nodes, m ∈ g.nodes ∨ m = pkg ∨ m ∈ depNames p) ∧
       (∀ m ∈ next1, m ∈ next ∨ m ∈ depNames p) ∧
       pkg ∈ g1.nodes ∧
       (∀ d ∈ depNames p, d ∈ g1.nodes) ∧
       (∀ m ∈ g1.nodes, m ∈ g.nodes ∨ m = pkg ∨ m ∈ next1) ∧
       g.nodes.length + next1.length ≤ g1.nodes.length + next.length) := by
  unfold processPkg at h
  cases hc : c.get pkg with
  | none => rw [hc] at h; cases h
  | some p =>
    rw [hc] at h
    simp only [Except.ok.injEq] at h
    refine ⟨p, rfl, ?_⟩
    have hname : p.name = pkg := get_name_eq hc
    cases ha : g.add_node_or_get_index p.name with
    | mk gA idxA =>
      rw [ha] at h
      obtain ⟨dp1, dp2, dp3, dp4, dp5, dp6, dp7, dp8⟩ :=
        processDeps_facts idxA p.depsList gA next g1 next1 h
      have hAmem : ∀ m ∈ g.nodes, m ∈ gA.nodes := by
        intro m hm
        rcases add_node_spec g p.name gA idxA ha with ⟨he, _⟩ | ⟨he, _⟩
        · rw [he]; exact hm
        · rw [he]; exact List.mem_append_left _ hm
      have hAmem2 : ∀ m ∈ gA.nodes, m ∈ g.nodes ∨ m = pkg := by
        intro m hm
        rcases add_node_spec g p.name gA idxA ha with ⟨he, _⟩ | ⟨he, _⟩
        · rw [he] at hm; exact Or.inl hm
        · rw [he] at hm
          rcases List.mem_append.mp hm with hl | hr
          · exact Or.inl hl
          · exact Or.inr (hname ▸ List.mem_singleton.mp hr)
      have hAnodup : g.nodes.Nodup → gA.nodes.Nodup := by
        intro hn
        rcases add_node_spec g p.name gA idxA ha with ⟨he, _⟩ | ⟨he, hnm⟩
        · rw [he]; exact hn
        · rw [he]; simp [List.nodup_append, hn, hnm]
      have hAlen : g.nodes.length ≤ gA.nodes.length := by
        rcases add_node_spec g p.name gA idxA ha with ⟨he, _⟩ | ⟨he, _⟩
        · rw [he]
        · rw [he]; simp
      have hApkg : pkg ∈ gA.nodes := by
        rcases add_node_spec g p.name gA idxA ha with ⟨he, hmem⟩ | ⟨he, _⟩
        · rw [he]; exact hname ▸ hmem
        · rw [he]
          exact List.mem_append_right _ (List.mem_singleton.mpr hname.symm)
      have hvals : p.depsList.map Dependency.value = depNames p := rfl
      refine ⟨fun m hm => dp1 m (hAmem m hm), dp2, fun hn => dp3 (hAnodup hn), ?_, ?_,
        dp1 _ hApkg, ?_, ?_, by omega⟩
      · intro m hm
        rcases dp4 m hm with hm1 | hm1
        · rcases hAmem2 m hm1 with hm2 | hm2
          · exact Or.inl hm2
          · exact Or.inr (Or.inl hm2)
        · exact Or.inr (Or.inr (hvals ▸ hm1))
      · intro m hm
        rcases dp5 m hm with hm1 | hm1
        · exact Or.inl hm1
        · exact Or.inr (hvals ▸ hm1)
      · intro d hd
        rw [← hvals] at hd
        obtain ⟨e, he, hev⟩ := List.mem_map.mp hd
        exact hev ▸ dp6 e he
      · intro m hm
        rcases dp7 m hm with hm1 | hm1
        · rcases hAmem2 m hm1 with hm2 | hm2
          · exact Or.inl hm2
          · exact Or.inr (Or.inl hm2)
        · exact Or.inr (Or.inr hm1)

theorem Expanded.mono {c : Catalog} {g g2 : Dag} (hsub : ∀ m ∈ g.nodes, m ∈ g2.nodes)
    {n : String} (h : Expanded c g n) : Expanded c g2 n := by
  obtain ⟨p, hget, hdeps⟩ := h
  exact ⟨p, hget, fun d hd => hsub d (hdeps d hd)⟩

theorem buildRound_ok_facts (c : Catalog) (b : List String) :
    ∀ (rest : List String) (g : Dag) (next : List String) (g2 : Dag) (next2 : List String),
    buildRound c g next rest = .ok (g2, next2) →
    ((∀ m ∈ g.nodes, m ∈ g2.nodes) ∧
     (∀ m ∈ next, m ∈ next2) ∧
     (g.nodes.Nodup → g2.nodes.Nodup) ∧
     ((∀ m ∈ g.nodes, m ∈ allNames c) → ∀ m ∈ g2.nodes, m ∈ allNames c) ∧
     ((∀ m ∈ next, m ∈ allNames c) → ∀ m ∈ next2, m ∈ allNames c) ∧
     (∀ m ∈ rest, m ∈ g2.nodes) ∧
     ((∀ m ∈ g.nodes, Reachable c b m) → (∀ m ∈ rest, Reachable c b m) →
        (∀ m ∈ next, Reachable c b m) →
        ((∀ m ∈ g2.nodes, Reachable c b m) ∧ (∀ m ∈ next2, Reachable c b m))) ∧
     ((∀ m ∈ g.nodes, m ∈ rest ∨ m ∈ next ∨ Expanded c g m) →
        ∀ m ∈ g2.nodes, m ∈ next2 ∨ Expanded c g2 m) ∧
     (g.nodes.length + next2.length ≤ g2.nodes.length + next.length)) := by
  intro rest
  induction rest with
  | nil =>
    intro g next g2 next2 h
    simp only [buildRound] at h
    cases h
    refine ⟨fun m hm => hm, fun m hm => hm, id, fun ha => ha, fun ha => ha, by simp,
      fun hg _ hn => ⟨hg, hn⟩, ?_, by omega⟩
    intro hA8 m hm
    rcases hA8 m hm with hm1 | hm1 | hm1
    · exact absurd hm1 (List.not_mem_nil m)
    · exact Or.inl hm1
    · exact Or.inr hm1
  | cons pkg rest2 ih =>
    intro g next g2 next2 h
    simp only [buildRound] at h
    cases hP : processPkg c g next pkg with
    | error e => rw [hP] at h; cases h
    | ok r =>
      rw [hP] at h
      cases r with
      | mk g1 next1 =>
        obtain ⟨p, hget, pk1, pk2, pk3, pk4, pk5, pk6, pk7, pk8, pk9⟩ :=
          processPkg_ok_facts c g next pkg g1 next1 hP
        obtain ⟨ih1, ih2, ih3, ih4, ih5, ih6, ih7, ih8, ih9⟩ := ih g1 next1 g2 next2 h
        refine ⟨fun m hm => ih1 m (pk1 m hm), fun m hm => ih2 m (pk2 m hm),
          fun hn => ih3 (pk3 hn), ?_, ?_, ?_, ?_, ?_, by omega⟩
        · intro hga
          apply ih4
          intro m hm
          rcases pk4 m hm with hm1 | hm1 | hm1
          · exact hga m hm1
          · exact hm1 ▸ name_mem_allNames hget
          · exact dep_mem_allNames hget m hm1
        · intro hna
          apply ih5
          intro m hm
          rcases pk5 m hm with hm1 | hm1
          · exact hna m hm1
          · exact dep_mem_allNames hget m hm1
        · intro m hm
          rcases List.mem_cons.mp hm with rfl | hm2
          · exact ih1 m pk6
          · exact ih6 m hm2
        · intro hg hrest hnext
          have hpkgR : Reachable c b pkg := hrest pkg (List.mem_cons_self pkg rest2)
          apply ih7
          · intro m hm
            rcases pk4 m hm with hm1 | hm1 | hm1
            · exact hg m hm1
            · exact hm1 ▸ hpkgR
            · exact Reachable.step hpkgR hget hm1
          · intro m hm
            exact hrest m (List.mem_cons_of_mem pkg hm)
          · intro m hm
            rcases pk5 m hm with hm1 | hm1
            · exact hnext m hm1
            · exact Reachable.step hpkgR hget hm1
        · intro hA8
          apply ih8
          intro m hm
          have hExpPkg : Expanded c g1 pkg := ⟨p, hget, pk7⟩
          rcases pk8 m hm with hm1 | hm1 | hm1
          · rcases hA8 m hm1 with hm2 | hm2 | hm2
            · rcases List.mem_cons.mp hm2 with rfl | hm3
              · exact Or.inr (Or.inr hExpPkg)
              · exact Or.inl hm3
            · exact Or.inr (Or.inl (pk2 m hm2))
            · exact Or.inr (Or.inr (hm2.mono pk1))
          · exact Or.inr (Or.inr (hm1 ▸ hExpPkg))
          · exact Or.inr (Or.inl hm1)

theorem buildRound_error_facts (c : Catalog) :
    ∀ (rest : List String) (g : Dag) (next : List String) (e : MainError),
    buildRound c g next rest = .error e →
    e = .unknownPackage ∧ ∃ n ∈ rest, c.get n = none := by
  intro rest
  induction rest with
  | nil => intro g next e h; simp [buildRound] at h
  | cons pkg rest2 ih =>
    intro g next e h
    simp only [buildRound] at h
    cases hP : processPkg c g next pkg with
    | error e0 =>
      rw [hP] at h
      cases h
      unfold processPkg at hP
      cases hc : c.get pkg with
      | none =>
        rw [hc] at hP
        cases hP
        exact ⟨rfl, pkg, List.mem_cons_self pkg rest2, hc⟩
      | some p => rw [hc] at hP; cases hP
    | ok r =>
      rw [hP] at h
      obtain ⟨he, n, hn, hget⟩ := ih r.1 r.2 e h
      exact ⟨he, n, List.mem_cons_of_mem pkg hn, hget⟩

theorem buildLoop_ok_facts (c : Catalog) (b : List String) :
    ∀ (fuel : Nat) (g : Dag) (processing : List String) (g2 : Dag),
    buildLoop c fuel g processing = some (.ok g2) →
    g.nodes.Nodup →
    (∀ m ∈ g.nodes, Reachable c b m) →
    (∀ m ∈ processing, Reachable c b m) →
    (∀ m ∈ b, m ∈ g.nodes ∨ m ∈ processing) →
    (∀ m ∈ g.nodes, m ∈ processing ∨ Expanded c g m) →
    (g2.nodes.Nodup ∧ (∀ m ∈ g2.nodes, Reachable c b m) ∧
      (∀ m ∈ b, m ∈ g2.nodes) ∧ (∀ m ∈ g2.nodes, Expanded c g2 m)) := by
  intro fuel
  induction fuel with
  | zero =>
    intro g processing g2 h hnodup hgR hpR hb hA8
    cases processing with
    | nil =>
      simp only [buildLoop, Option.some.injEq, Except.ok.injEq] at h
      subst h
      refine ⟨hnodup, hgR, ?_, ?_⟩
      · intro m hm
        rcases hb m hm with hm1 | hm1
        · exact hm1
        · exact absurd hm1 (List.not_mem_nil m)
      · intro m hm
        rcases hA8 m hm with hm1 | hm1
        · exact absurd hm1 (List.not_mem_nil m)
        · exact hm1
    | cons pkg rest => simp [buildLoop] at h
  | succ fuel ih =>
    intro g processing g2 h hnodup hgR hpR hb hA8
    cases processing with
    | nil =>
      simp only [buildLoop, Option.some.injEq, Except.ok.injEq] at h
      subst h
      refine ⟨hnodup, hgR, ?_, ?_⟩
      · intro m hm
        rcases hb m hm with hm1 | hm1
        · exact hm1
        · exact absurd hm1 (List.not_mem_nil m)
      · intro m hm
        rcases hA8 m hm with hm1 | hm1
        · exact absurd hm1 (List.not_mem_nil m)
        · exact hm1
    | cons pkg rest =>
      simp only [buildLoop] at h
      cases hR : buildRound c g [] (pkg :: rest) with
      | error e => rw [hR] at h; cases h
      | ok r =>
        rw [hR] at h
        cases r with
        | mk g1 next1 =>
          obtain ⟨r1, r2, r3, r4, r5, r6, r7, r8, r9⟩ :=
            buildRound_ok_facts c b (pkg :: rest) g [] g1 next1 hR
          obtain ⟨hg1R, hn1R⟩ := r7 hgR hpR (by simp)
          apply ih g1 next1 g2 h (r3 hnodup) hg1R hn1R
          · intro m hm
            rcases hb m hm with hm1 | hm1
            · exact Or.inl (r1 m hm1)
            · exact Or.inl (r6 m hm1)
          · apply r8
            intro m hm
            rcases hA8 m hm with hm1 | hm1
            · exact Or.inl hm1
            · exact Or.inr (Or.inr hm1)

theorem buildLoop_error_unknown (c : Catalog) :
    ∀ (fuel : Nat) (g : Dag) (processing : List String) (e : MainError),
    buildLoop c fuel g processing = some (.error e) → e = .unknownPackage := by
  intro fuel
  induction fuel with
  | zero =>
    intro g processing e h
    cases processing with
    | nil => simp [buildLoop] at h
    | cons pkg rest => simp [buildLoop] at h
  | succ fuel ih =>
    intro g processing e h
    cases processing with
    | nil => simp [buildLoop] at h
    | cons pkg rest =>
      simp only [buildLoop] at h
      cases hR : buildRound c g [] (pkg :: rest) with
      | error e0 =>
        rw [hR] at h
        simp only [Option.some.injEq, Except.error.injEq] at h
        exact h ▸ (buildRound_error_facts c (pkg :: rest) g [] e0 hR).1
      | ok r =>
        rw [hR] at h
        exact ih r.1 r.2 e h

theorem buildLoop_error_missing (c : Catalog) (b : List String) :
    ∀ (fuel : Nat) (g : Dag) (processing : List String) (e : MainError),
    buildLoop c fuel g processing = some (.error e) →
    (∀ m ∈ g.nodes, Reachable c b m) →
    (∀ m ∈ processing, Reachable c b m) →
    ∃ n, Reachable c b n ∧ c.get n = none := by
  intro fuel
  induction fuel with
  | zero =>
    intro g processing e h _ _
    cases processing with
    | nil => simp [buildLoop] at h
    | cons pkg rest => simp [buildLoop] at h
  | succ fuel ih =>
    intro g processing e h hgR hpR
    cases processing with
    | nil => simp [buildLoop] at h
    | cons pkg rest =>
      simp only [buildLoop] at h
      cases hR : buildRound c g [] (pkg :: rest) with
      | error e0 =>
        obtain ⟨-, n, hn, hget⟩ := buildRound_error_facts c (pkg :: rest) g [] e0 hR
        exact ⟨n, hpR n hn, hget⟩
      | ok r =>
        rw [hR] at h
        cases r with
        | mk g1 next1 =>
          obtain ⟨r1, r2, r3, r4, r5, r6, r7, r8, r9⟩ :=
            buildRound_ok_facts c b (pkg :: rest) g [] g1 next1 hR
          obtain ⟨hg1R, hn1R⟩ := r7 hgR hpR (by simp)
          exact ih g1 next1 e h hg1R hn1R

theorem buildLoop_total (c : Catalog) :
    ∀ (fuel : Nat) (g : Dag) (processing : List String),
    g.nodes.Nodup → (∀ m ∈ g.nodes, m ∈ allNames c) →
    (allNames c).length + 1 ≤ fuel + g.nodes.length →
    buildLoop c fuel g processing ≠ none := by
  intro fuel
  induction fuel with
  | zero =>
    intro g processing hnodup hall hlen
    have hsub : g.nodes ⊆ allNames c := fun m hm => hall m hm
    have : g.nodes.length ≤ (allNames c).length := (hnodup.subperm hsub).length_le
    omega
  | succ fuel ih =>
    intro g processing hnodup hall hlen
    cases processing with
    | nil => simp [buildLoop]
    | cons pkg rest =>
      simp only [buildLoop]
      cases hR : buildRound c g [] (pkg :: rest) with
      | error e => simp
      | ok r =>
        cases r with
        | mk g1 next1 =>
          obtain ⟨r1, r2, r3, r4, r5, r6, r7, r8, r9⟩ :=
            buildRound_ok_facts c [] (pkg :: rest) g [] g1 next1 hR
          cases next1 with
          | nil => simp [buildLoop]
          | cons q qs =>
            apply ih g1 (q :: qs) (r3 hnodup) (r4 hall)
            simp only [List.length_cons, List.length_nil] at r9
            omega

theorem reachable_mem_of_closed (c : Catalog) (b : List String) (g : Dag)
    (hb : ∀ m ∈ b, m ∈ g.nodes) (hexp : ∀ m ∈ g.nodes, Expanded c g m) :
    ∀ n, Reachable c b n → n ∈ g.nodes := by
  intro n h
  induction h with
  | base hmem => exact hb _ hmem
  | step hr hget hd ih =>
    obtain ⟨p2, hget2, hsub⟩ := hexp _ ih
    rw [hget] at hget2
    cases hget2
    exact hsub _ hd

/-! ### Closure builder: claims C1, C4 and C5 -/

/-- C1: whenever every bootstrap name and every transitively reachable
dependency name resolves in the catalog, the graph-building loop terminates
and the resulting graph's node list is exactly the set of reachable names,
with no name appearing as a node twice. -/
theorem claim_C1 (c : Catalog) (b : List String)
    (H : ∀ n, Reachable c b n → (c.get n).isSome) :
    ∃ g, build c b = some (.ok g) ∧ g.nodes.Nodup ∧
      ∀ n, n ∈ g.nodes ↔ Reachable c b n := by
  cases hr : build c b with
  | none =>
    rw [build] at hr
    exact absurd hr (buildLoop_total c (buildFuel c) { nodes := [], edges := [] } b
      (by simp) (by simp) (by simp [buildFuel]))
  | some r =>
    rw [build] at hr
    cases r with
    | error e =>
      obtain ⟨n, hreach, hmiss⟩ := buildLoop_error_missing c b (buildFuel c)
        { nodes := [], edges := [] } b e hr (by simp) (fun m hm => Reachable.base hm)
      have hsome := H n hreach
      rw [hmiss] at hsome
      cases hsome
    | ok g2 =>
      obtain ⟨hnodup, hsound, hb, hexp⟩ := buildLoop_ok_facts c b (buildFuel c)
        { nodes := [], edges := [] } b g2 hr (by simp) (by simp)
        (fun m hm => Reachable.base hm) (fun m hm => Or.inr hm) (by simp)
      refine ⟨g2, rfl, hnodup, fun n => ⟨hsound n, ?_⟩⟩
      exact fun hre => reachable_mem_of_closed c b g2 hb hexp n hre

theorem catalogSolo_get {n : String} {p : Package} (h : Catalog.get catalogSolo n = some p) :
    p = pkgSolo ∧ n = "a" := by
  by_cases hn : n = "a"
  · subst hn
    have heq : Catalog.get catalogSolo "a" = some pkgSolo := rfl
    rw [heq] at h
    simp only [Option.some.injEq] at h
    exact ⟨h.symm, rfl⟩
  · have heq : Catalog.get catalogSolo n = none := by
      have hb : (pkgSolo.name == n) = false := by
        have : pkgSolo.name = "a" := rfl
        rw [this]
        exact beq_eq_false_iff_ne.mpr (fun hh => hn hh.symm)
      simp [Catalog.get, catalogSolo, List.find?, hb]
    rw [heq] at h
    cases h

/-- Witness for C1 on a concrete one-package catalog whose closure is total. -/
theorem claim_C1_witness :
    ∃ g, build catalogSolo ["a"] = some (.ok g) ∧ g.nodes.Nodup ∧
      ∀ n, n ∈ g.nodes ↔ Reachable catalogSolo ["a"] n := by
  apply claim_C1
  intro n h
  induction h with
  | base hmem =>
    simp only [List.mem_singleton] at hmem
    subst hmem
    rfl
  | step hr hget hd ih =>
    obtain ⟨hp, -⟩ := catalogSolo_get hget
    rw [hp] at hd
    simp [depNames, pkgSolo, mkPackage, Package.depsList] at hd

/-- Counterexample to C4 as stated: the `UnknownPackage` error of main.rs
carries no name — two runs whose missing names differ ("x" and "y") fail with
the identical payload-free error value, so the error cannot be carrying the
missing name. -/
theorem claim_C4_counterexample :
    build { packages := [] } ["x"] = some (.error .unknownPackage) ∧
    build { packages := [] } ["y"] = some (.error .unknownPackage) := ⟨rfl, rfl⟩

/-- C4 (amended): if any name referenced during closure building — bootstrap
or transitively reached — has no catalog entry, the stage fails with the
(payload-free) `UnknownPackage` error and no graph is returned. -/
theorem claim_C4_amended (c : Catalog) (b : List String)
    (H : ∃ n, Reachable c b n ∧ c.get n = none) :
    build c b = some (.error .unknownPackage) := by
  obtain ⟨n0, hreach0, hmiss0⟩ := H
  cases hr : build c b with
  | none =>
    rw [build] at hr
    exact absurd hr (buildLoop_total c (buildFuel c) { nodes := [], edges := [] } b
      (by simp) (by simp) (by simp [buildFuel]))
  | some r =>
    rw [build] at hr
    cases r with
    | error e =>
      have he := buildLoop_error_unknown c (buildFuel c) { nodes := [], edges := [] } b e hr
      subst he
      rfl
    | ok g2 =>
      obtain ⟨hnodup, hsound, hb, hexp⟩ := buildLoop_ok_facts c b (buildFuel c)
        { nodes := [], edges := [] } b g2 hr (by simp) (by simp)
        (fun m hm => Reachable.base hm) (fun m hm => Or.inr hm) (by simp)
      have hmem : n0 ∈ g2.nodes := reachable_mem_of_closed c b g2 hb hexp n0 hreach0
      obtain ⟨p, hget, -⟩ := hexp n0 hmem
      rw [hmiss0] at hget
      cases hget

/-- Witness for the amended C4 at a concrete missing bootstrap name. -/
theorem claim_C4_witness :
    build { packages := [] } ["z"] = some (.error .unknownPackage) :=
  claim_C4_amended { packages := [] } ["z"] ⟨"z", Reachable.base (by simp), rfl⟩

/-- C5: on the catalog whose dependency data is the cycle A→B→A, the
graph-building loop terminates and produces a graph with exactly the nodes
A and B (each once) and both directed edges. -/
theorem claim_C5 :
    build catalogAB ["A"]
      = some (.ok { nodes := ["A", "B"], edges := [(0, 1), (1, 0)] }) := by rfl

end Pisi
